/-
  Verification of the pattern-spotting retrieval/localization pipeline.

  Shallow embedding of `src/search/localization.py` and `src/search/search.py`:
  - numpy float arrays are modelled over a linear ordered field (`ℚ` for
    executable instances, `ℝ` where the code takes logarithms, powers and
    square roots);
  - feature maps and integral images of shape (height, width, dim) are
    modelled as a structure carrying the shape and a per-cell channel vector;
  - Python generators become Lean lists (in yield order), Python `assert`
    and runtime `NameError` become `Except.error` results.
-/
import Mathlib

namespace PatternSpotting

/-- Dot product of two vectors, `u.dot(v)` on equal-length 1-D arrays. -/
def dotp {α : Type} [Mul α] [AddCommMonoid α] (u v : List α) : α :=
  (List.zipWith (fun a b => a * b) u v).sum

/-- Fuel-driven helper for `pyRange`: emits `start, start+step, ...`
while below `stop`. -/
def pyRangeAux (step : ℕ) : ℕ → ℕ → ℕ → List ℕ
  | 0, _, _ => []
  | n + 1, start, stop =>
    if start < stop then start :: pyRangeAux step n (start + step) stop
    else []

/-- Python `range(start, stop, step)` for a positive step
(`stop - start` is enough fuel since each iteration advances by at least 1).
Python raises `ValueError` on `step = 0`; no element is ever produced
in that case, which we model as the empty list. -/
def pyRange (start stop step : ℕ) : List ℕ :=
  if step = 0 then [] else pyRangeAux step (stop - start) start stop

/-- The grid of candidate areas produced by the nested loops of
`_area_generator` (src/search/localization.py): `x1` over
`range(0, width, step)`, `x2` over `range(x1+step-1, width, step)`,
`y1` over `range(0, height, step)`, `y2` over `range(y1+step-1, height, step)`,
yielding `(x1, y1, x2, y2)` in loop order. -/
def gridAreas (height width step : ℕ) : List (ℕ × ℕ × ℕ × ℕ) :=
  (pyRange 0 width step).flatMap fun x1 =>
    (pyRange (x1 + step - 1) width step).flatMap fun x2 =>
      (pyRange 0 height step).flatMap fun y1 =>
        (pyRange (y1 + step - 1) height step).map fun y2 => (x1, y1, x2, y2)

/-- Aspect ratio `(x2-x1+1)/(y2-y1+1)` of an area, computed in the reals
as the Python float division does. -/
noncomputable def areaAspect (a : ℕ × ℕ × ℕ × ℕ) : ℝ :=
  ((a.2.2.1 : ℝ) - (a.1 : ℝ) + 1) / ((a.2.2.2 : ℝ) - (a.2.1 : ℝ) + 1)

open Classical in
/-- `_area_generator(shape, step_size, aspect_ratio, max_aspect_ratio_div)`
from src/search/localization.py, as the list of yielded areas.
`aspect_ratio = none`, or the Python-falsy value `0.0`, disables the filter;
otherwise an area is yielded iff
`abs(log(aspect_ratio / area_aspect_ratio)) ≤ log(max_aspect_ratio_div)`
(the code skips the area when the absolute log-ratio exceeds the log of
`max_aspect_ratio_div`). -/
noncomputable def area_generator (height width step : ℕ) (aspect_ratio : Option ℝ)
    (max_aspect_ratio_div : ℝ) : List (ℕ × ℕ × ℕ × ℕ) :=
  match aspect_ratio with
  | none => gridAreas height width step
  | some t =>
    if t = 0 then gridAreas height width step
    else
      (gridAreas height width step).filter fun a =>
        decide (|Real.log (t / areaAspect a)| ≤ Real.log max_aspect_ratio_div)

/-- Cumulative sum: `cumsum g n = g 0 + g 1 + ... + g n`
(one axis of `np.cumsum`). -/
def cumsum {α : Type} [AddCommMonoid α] (g : ℕ → α) (n : ℕ) : α :=
  ∑ i ∈ Finset.range (n + 1), g i

/-- `_compute_integral_image(image, exp)` (src/search/localization.py) on one
channel: raise each entry to the power `e`, then cumulative sums along
axis 0 (rows, index `y`) and axis 1 (columns, index `x`).  With a natural
exponent no NaN can arise, so `np.nan_to_num` is the identity here. -/
def compute_integral_image {α : Type} [CommRing α] (f : ℕ → ℕ → α) (e : ℕ) :
    ℕ → ℕ → α :=
  fun y x => cumsum (fun x2 => cumsum (fun y2 => f y2 x2 ^ e) y) x

/-- `_integral_image_sum(integral_image, area)` (src/search/localization.py)
on one channel: inclusion-exclusion on the integral image, guarded on
`x1 > 0` / `y1 > 0`, then clamped below by `0`
(`np.maximum(0.0, np.nan_to_num(value))`; `nan_to_num` is the identity in
exact arithmetic). The area is `(left, upper, right, lower) = (x1, y1, x2, y2)`. -/
def integral_image_sum {α : Type} [LinearOrderedField α] (ii : ℕ → ℕ → α)
    (area : ℕ × ℕ × ℕ × ℕ) : α :=
  let x1 := area.1
  let y1 := area.2.1
  let x2 := area.2.2.1
  let y2 := area.2.2.2
  let v0 := ii y2 x2
  let v1 := if 0 < x1 then v0 - ii y2 (x1 - 1) else v0
  let v2 := if 0 < y1 then v1 - ii (y1 - 1) x2 else v1
  let v3 := if 0 < x1 ∧ 0 < y1 then v2 + ii (y1 - 1) (x1 - 1) else v2
  max 0 v3

/-- The brute-force reference sum: `f^e` summed elementwise over the
inclusive rectangle `left ≤ x ≤ right`, `upper ≤ y ≤ lower`. -/
def brute_force_sum {α : Type} [CommRing α] (f : ℕ → ℕ → α) (e : ℕ)
    (area : ℕ × ℕ × ℕ × ℕ) : α :=
  ∑ y ∈ Finset.Icc area.2.1 area.2.2.2, ∑ x ∈ Finset.Icc area.1 area.2.2.1, f y x ^ e

/-- A 3-D numpy array of shape `(height, width, dim)`: a convolutional
feature map or its integral image.  `data y x` is the channel vector at
cell `(y, x)`. -/
structure FMap where
  height : ℕ
  width : ℕ
  dim : ℕ
  data : ℕ → ℕ → List ℝ

/-- Channel `ch` of a feature map, as a scalar image. -/
def FMap.chan (fm : FMap) (ch : ℕ) : ℕ → ℕ → ℝ :=
  fun y x => (fm.data y x).getD ch 0

/-- `_compute_integral_image` on a full `(height, width, dim)` array:
`np.cumsum` along both axes acts channelwise. -/
def FMap.integral (fm : FMap) (e : ℕ) : FMap :=
  { height := fm.height, width := fm.width, dim := fm.dim,
    data := fun y x =>
      (List.range fm.dim).map fun ch => compute_integral_image (fm.chan ch) e y x }

/-- `_integral_image_sum` on a `(height, width, dim)` integral image:
the elementwise operations act channelwise, giving a vector of shape `(dim,)`. -/
noncomputable def integral_image_sum_vec (ii : FMap) (area : ℕ × ℕ × ℕ × ℕ) : List ℝ :=
  (List.range ii.dim).map fun ch => integral_image_sum (ii.chan ch) area

/-- Euclidean norm of a vector, `np.linalg.norm`. -/
noncomputable def vecNorm (v : List ℝ) : ℝ :=
  Real.sqrt (v.map fun x => x ^ 2).sum

/-- Modelled from the spec: `normalize` lives in `src/util.py`, which is not
part of the provided sources; per the spec (§4.2) it L2-normalizes a vector.
(Lean division by zero maps the zero vector to itself.) -/
noncomputable def normalize (v : List ℝ) : List ℝ :=
  v.map fun x => x / vecNorm v

/-- `_compute_area_score(query, area, integral_image, exp)`
(src/search/localization.py): pooled area sum, elementwise `1/exp` power,
L2-normalize, dot with the query, clip to `[-1, 1]`
(`np.clip(score, -1.0, 1.0) = min(1, max(-1, score))`). -/
noncomputable def compute_area_score (query : List ℝ) (area : ℕ × ℕ × ℕ × ℕ)
    (ii : FMap) (e : ℕ) : ℝ :=
  let max_pool := integral_image_sum_vec ii area
  let pooled := normalize (max_pool.map fun x => x ^ ((1 : ℝ) / (e : ℝ)))
  let score := dotp pooled query
  min 1 (max (-1) score)

/-- The eight candidate boxes one sweep of `area_refinement` evaluates, in
program order: for each coordinate of `(left, upper, right, lower)` first the
decrease by `step` (clamped to `min_ranges = [0, 0, left, upper]`), then the
increase by `step` (clamped to `max_ranges = [right, lower, width-1, height-1]`),
each applied to the sweep's starting box `best_area`.  Natural-number
truncated subtraction agrees with Python's `max(c - step, 0)` clamping. -/
def refinement_candidates (a : ℕ × ℕ × ℕ × ℕ) (step width height : ℕ) :
    List (ℕ × ℕ × ℕ × ℕ) :=
  let l := a.1
  let u := a.2.1
  let r := a.2.2.1
  let d := a.2.2.2
  [ (max (l - step) 0, u, r, d),
    (min (l + step) r, u, r, d),
    (l, max (u - step) 0, r, d),
    (l, min (u + step) d, r, d),
    (l, u, max (r - step) l, d),
    (l, u, min (r + step) (width - 1), d),
    (l, u, r, max (d - step) u),
    (l, u, r, min (d + step) (height - 1)) ]

open Classical in
/-- One iteration of the inner loop of `area_refinement`: starting from
`(best_area, best_score)`, evaluate the eight candidate moves in order,
keeping a running `(iter_best_area, iter_best_score)` that is replaced
exactly when a candidate scores strictly higher. -/
noncomputable def refinement_sweep (score : ℕ × ℕ × ℕ × ℕ → ℝ)
    (width height step : ℕ) (best : (ℕ × ℕ × ℕ × ℕ) × ℝ) : (ℕ × ℕ × ℕ × ℕ) × ℝ :=
  (refinement_candidates best.1 step width height).foldl
    (fun acc cand => if score cand > acc.2 then (cand, score cand) else acc) best

/-- `area_refinement(query, area, area_score, integral_image, iterations,
max_step, exp)` (src/search/localization.py): for `step` in
`range(max_step, 0, -1)` run `iterations` sweeps, then return the best area
(the final score is not returned). -/
noncomputable def area_refinement (query : List ℝ) (area : ℕ × ℕ × ℕ × ℕ)
    (area_score : ℝ) (ii : FMap) (iterations max_step e : ℕ) : ℕ × ℕ × ℕ × ℕ :=
  let score := fun a => compute_area_score query a ii e
  let steps := ((List.range max_step).map fun i => i + 1).reverse
  (steps.foldl
    (fun best step => (refinement_sweep score ii.width ii.height step)^[iterations] best)
    (area, area_score)).1

open Classical in
/-- `localize(query, features, query_image_shape, step_size,
aspect_ratio_factor)` (src/search/localization.py): build the integral image
with exponent `AML_EXP = 10.0`, enumerate areas over its shape with the
query image's aspect ratio `width / height` as target ratio, and keep the
best-scoring area, starting from `(None, -inf)` (the score lives in `EReal`
so that `-inf` is `⊥`). -/
noncomputable def localize (query : List ℝ) (features : FMap)
    (query_image_shape : ℕ × ℕ) (step_size : ℕ) (aspect_ratio_factor : ℝ) :
    Option (ℕ × ℕ × ℕ × ℕ) × EReal :=
  let query_aspect_ratio : ℝ := (query_image_shape.2 : ℝ) / (query_image_shape.1 : ℝ)
  let ii := features.integral 10
  (area_generator ii.height ii.width step_size (some query_aspect_ratio)
      aspect_ratio_factor).foldl
    (fun best area =>
      let score := compute_area_score query area ii 10
      if (score : EReal) > best.2 then (some area, (score : EReal)) else best)
    (none, ⊥)

/-- `_descending_argsort(array, k)` (src/search/search.py): indices of the
`k` highest values, in decreasing value order.  `np.argpartition(array, -k)[-k:]`
selects the positions of the `k` largest values (the whole array when `k = 0`,
since the Python slice `[-0:]` is the full array), `np.argsort` then orders the
selection increasingly by value and `[::-1]` reverses it.  We model the
composite extensionally by a full sort of `range(len(array))` in decreasing
value order (the order among equal values is implementation-defined in numpy;
insertion sort fixes one such order), taking the first `k` entries. -/
def descending_argsort {α : Type} [LinearOrderedField α] (array : List α) (k : ℕ) :
    List ℕ :=
  let sorted := List.insertionSort (fun i j => array.getD j 0 ≤ array.getD i 0)
    (List.range array.length)
  if k = 0 then sorted else sorted.take k

/-- `_ascending_argsort(array, k)` (src/search/search.py): indices of the `k`
lowest values, in increasing value order (`np.argpartition(array, k-1)[:k]`
then `np.argsort`; the slice `[:0]` is empty, matching `take 0`). -/
def ascending_argsort {α : Type} [LinearOrderedField α] (array : List α) (k : ℕ) :
    List ℕ :=
  (List.insertionSort (fun i j => array.getD i 0 ≤ array.getD j 0)
    (List.range array.length)).take k

/-- `query(query_features, feature_store, top_n)` (src/search/search.py):
similarities are plain dot products of the stored vectors with the query,
`k = min(len(feature_store), abs(top_n))`, and the indices come from the
descending argsort for `top_n >= 0` and from the ascending one otherwise;
the returned similarity list is `similarity[indices]`. -/
def query {α : Type} [LinearOrderedField α] (query_features : List α)
    (feature_store : List (List α)) (top_n : ℤ) : List ℕ × List α :=
  let similarity := feature_store.map fun v => dotp v query_features
  let k := min feature_store.length top_n.natAbs
  let indices := if 0 ≤ top_n then descending_argsort similarity k
    else ascending_argsort similarity k
  (indices, indices.map fun i => similarity.getD i 0)

/-- Python 3 `round` on an exact value: round half to even. -/
def pyRound (q : ℚ) : ℤ :=
  let f := ⌊q⌋
  if q - f < 1 / 2 then f
  else if q - f > 1 / 2 then f + 1
  else if Even f then f else f + 1

/-- The per-candidate coordinate rescaling of `search_roi`
(src/search/search.py, bounding-box construction loop):
`scale_x = metadata_width / feature_map_width`,
`scale_y = metadata_height / feature_map_height`, each corner of
`(left, upper, right, lower)` multiplied by its scale and rounded. -/
def rescale_bbox (bbox : ℕ × ℕ × ℕ × ℕ) (metadata_width metadata_height : ℕ)
    (feature_map_width feature_map_height : ℕ) : ℤ × ℤ × ℤ × ℤ :=
  let scale_x : ℚ := (metadata_width : ℚ) / (feature_map_width : ℚ)
  let scale_y : ℚ := (metadata_height : ℚ) / (feature_map_height : ℚ)
  (pyRound (bbox.1 * scale_x), pyRound (bbox.2.1 * scale_y),
   pyRound (bbox.2.2.1 * scale_x), pyRound (bbox.2.2.2 * scale_y))

/-- `np.average(vs, axis=0)`: componentwise mean of a stack of vectors. -/
noncomputable def np_average (vs : List (List ℝ)) : List ℝ :=
  match vs with
  | [] => []
  | v :: rest =>
    (rest.foldl (fun acc u => acc.zipWith (fun a b => a + b) u) v).map
      fun x => x / (vs.length : ℝ)

open Classical in
/-- `search_roi(search_model, image, roi, top_n, verbose)`
(src/search/search.py), with the external collaborators (cropping,
preprocessing, CNN feature extraction, PCA projection, the feature store)
abstracted as inputs: `query_repr` and `localization_repr` are the
representations computed from the crop, `(crop_height, crop_width)` is
`crop.shape[1:3]`, `feature_store` the stored representation matrix,
`get_features` / `get_metadata` the per-candidate collaborators
(`get_metadata i = (width, height)`).

Control flow of the source:
- `assert top_n >= 0` fails on negative `top_n` (modelled as an error result);
- stage 1 ranks the store;
- the stage-2 loop computes `localize(localization_repr, features,
  crop.shape[1:3])` for the candidate, then evaluates
  `area_refinement(query, best_area, best_score, integral_image)` — but
  `best_area`, `best_score` and `integral_image` are names never defined in
  this scope (and `query` is the module-level ranking function), so the
  first loop iteration raises `NameError`;
- with zero candidates the loop body never runs and stages 2/3 proceed over
  empty collections, ending in the per-candidate rescaling loop. -/
noncomputable def search_roi (query_repr localization_repr : List ℝ)
    (crop_height crop_width : ℕ) (feature_store : List (List ℝ))
    (get_features : ℕ → FMap) (get_metadata : ℕ → ℕ × ℕ) (top_n : ℤ) :
    Except String (List ℕ × List ℝ × List (ℤ × ℤ × ℤ × ℤ)) :=
  if top_n < 0 then Except.error "AssertionError" else
  -- Step 1: initial retrieval
  let step1 := query query_repr feature_store top_n
  let indices := step1.1
  -- Step 2: localization and re-ranking
  let step2 : Except String (List ((ℕ × ℕ × ℕ × ℕ) × List ℝ)) :=
    indices.foldlM
      (fun acc feature_idx =>
        let features := get_features feature_idx
        let loc := localize localization_repr features (crop_height, crop_width)
        -- bounding_boxes[idx] = area_refinement(query, best_area, best_score,
        --                                       integral_image):
        -- none of best_area, best_score, integral_image is defined here
        have _ := loc
        have _ := acc
        Except.error "NameError: name best_area is not defined")
      []
  match step2 with
  | Except.error e => Except.error e
  | Except.ok collected =>
    let bounding_boxes := collected.map fun c => c.1
    let bounding_box_reprs := collected.map fun c => c.2
    let reranking := query query_repr bounding_box_reprs 0
    -- Step 3: average query expansion (avg_query_exp_n = 5)
    let best_rerank_indices := reranking.1.take 5
    let avg_repr := np_average
      ((best_rerank_indices.map fun i => bounding_box_reprs.getD i []) ++ [query_repr])
    let expansion := query avg_repr bounding_box_reprs 0
    let exp_indices := expansion.1
    let similarity := expansion.2
    let bbox_list := exp_indices.map fun i =>
      let feature_idx := indices.getD i 0
      let md := get_metadata feature_idx
      let fm := get_features feature_idx
      rescale_bbox (bounding_boxes.getD i (0, 0, 0, 0)) md.1 md.2 fm.width fm.height
    Except.ok (exp_indices.map fun i => indices.getD i 0, similarity, bbox_list)

/-! ### Lemmas about the area grid -/

theorem mem_pyRangeAux {step : ℕ} :
    ∀ {fuel start stop x : ℕ}, x ∈ pyRangeAux step fuel start stop →
      start ≤ x ∧ x < stop := by
  intro fuel
  induction fuel with
  | zero => intro start stop x hx; simp [pyRangeAux] at hx
  | succ n ih =>
    intro start stop x hx
    simp only [pyRangeAux] at hx
    by_cases hlt : start < stop
    · rw [if_pos hlt] at hx
      rcases List.mem_cons.mp hx with rfl | hx
      · exact ⟨le_refl x, hlt⟩
      · have := ih hx
        exact ⟨le_trans (Nat.le_add_right start step) this.1, this.2⟩
    · rw [if_neg hlt] at hx
      simp at hx

theorem mem_pyRange {start stop step x : ℕ} (h : x ∈ pyRange start stop step) :
    step ≠ 0 ∧ start ≤ x ∧ x < stop := by
  unfold pyRange at h
  by_cases hs : step = 0
  · rw [if_pos hs] at h; simp at h
  · rw [if_neg hs] at h
    exact ⟨hs, mem_pyRangeAux h⟩

theorem mem_gridAreas {height width step x1 y1 x2 y2 : ℕ}
    (h : (x1, y1, x2, y2) ∈ gridAreas height width step) :
    x1 ≤ x2 ∧ x2 < width ∧ y1 ≤ y2 ∧ y2 < height := by
  unfold gridAreas at h
  rcases List.mem_flatMap.mp h with ⟨a1, ha1, h⟩
  rcases List.mem_flatMap.mp h with ⟨a2, ha2, h⟩
  rcases List.mem_flatMap.mp h with ⟨b1, hb1, h⟩
  rcases List.mem_map.mp h with ⟨b2, hb2, heq⟩
  obtain ⟨rfl, rfl, rfl, rfl⟩ :
      a1 = x1 ∧ b1 = y1 ∧ a2 = x2 ∧ b2 = y2 := by
    have h1 := congrArg (fun p => p.1) heq
    have h2 := congrArg (fun p => p.2.1) heq
    have h3 := congrArg (fun p => p.2.2.1) heq
    have h4 := congrArg (fun p => p.2.2.2) heq
    simp at h1 h2 h3 h4
    exact ⟨h1, h2, h3, h4⟩
  obtain ⟨hs, -, -⟩ := mem_pyRange ha1
  obtain ⟨-, hx2a, hx2b⟩ := mem_pyRange ha2
  obtain ⟨-, hy2a, hy2b⟩ := mem_pyRange hb2
  have hstep : 1 ≤ step := Nat.one_le_iff_ne_zero.mpr hs
  refine ⟨?_, hx2b, ?_, hy2b⟩
  · omega
  · omega

theorem mem_area_generator_mem_grid {height width step : ℕ} {ar : Option ℝ}
    {mard : ℝ} {a : ℕ × ℕ × ℕ × ℕ}
    (h : a ∈ area_generator height width step ar mard) :
    a ∈ gridAreas height width step := by
  match ar with
  | none => simpa [area_generator] using h
  | some t =>
    simp only [area_generator] at h
    by_cases ht : t = 0
    · rwa [if_pos ht] at h
    · rw [if_neg ht] at h
      exact (List.mem_filter.mp h).1

/-- C6: every area yielded by the area enumerator for shape `(H, W)` with
stride `step` satisfies `0 ≤ left ≤ right < W` and `0 ≤ upper ≤ lower < H`
(the lower bounds are automatic for natural-number coordinates); and when a
(Python-truthy, i.e. nonzero) target aspect ratio is given, every yielded
area additionally satisfies
`|log (target_ratio / area_ratio)| ≤ log max_ratio_div` with
`area_ratio = (right-left+1)/(lower-upper+1)`. -/
theorem c6_area_generator_bounds (height width step : ℕ) (ar : Option ℝ)
    (mard : ℝ) (x1 y1 x2 y2 : ℕ)
    (h : (x1, y1, x2, y2) ∈ area_generator height width step ar mard) :
    x1 ≤ x2 ∧ x2 < width ∧ y1 ≤ y2 ∧ y2 < height ∧
      ∀ t : ℝ, ar = some t → t ≠ 0 →
        |Real.log (t / areaAspect (x1, y1, x2, y2))| ≤ Real.log mard := by
  obtain ⟨h1, h2, h3, h4⟩ := mem_gridAreas (mem_area_generator_mem_grid h)
  refine ⟨h1, h2, h3, h4, ?_⟩
  rintro t rfl ht
  simp only [area_generator] at h
  rw [if_neg ht] at h
  have := (List.mem_filter.mp h).2
  exact of_decide_eq_true this

/-- Witness for C6 at a concrete input: the area `(0, 0, 1, 1)` is yielded
for shape `(2, 2)` with stride 2 and no aspect-ratio filter, and it is
within bounds. -/
theorem c6_area_generator_bounds_witness :
    ((0, 0, 1, 1) ∈ area_generator 2 2 2 none 1) ∧
      (0 ≤ 1 ∧ (1 : ℕ) < 2 ∧ 0 ≤ 1 ∧ (1 : ℕ) < 2) := by
  have hmem : ((0, 0, 1, 1) : ℕ × ℕ × ℕ × ℕ) ∈ area_generator 2 2 2 none 1 := by
    show ((0, 0, 1, 1) : ℕ × ℕ × ℕ × ℕ) ∈ gridAreas 2 2 2
    decide
  have := c6_area_generator_bounds 2 2 2 none 1 0 0 1 1 hmem
  exact ⟨hmem, Nat.zero_le 1, this.2.1, Nat.zero_le 1, this.2.2.2.1⟩

/-! ### C10: localize on an empty enumeration -/

/-- C10: if the area enumerator yields no area at all for the feature map's
integral-image shape, the query's aspect ratio and the given step size, then
`localize` returns `best_area = None` together with `score = -inf`
(the initial accumulator `(None, -np.inf)` is returned unchanged). -/
theorem c10_localize_empty_enumeration (query : List ℝ) (features : FMap)
    (query_image_shape : ℕ × ℕ) (step_size : ℕ) (aspect_ratio_factor : ℝ)
    (h : area_generator features.height features.width step_size
        (some ((query_image_shape.2 : ℝ) / (query_image_shape.1 : ℝ)))
        aspect_ratio_factor = []) :
    localize query features query_image_shape step_size aspect_ratio_factor
      = (none, (⊥ : EReal)) := by
  unfold localize
  simp only [FMap.integral]
  rw [h]
  rfl

/-- Witness for C10: a 1×1 feature map with step size 3 admits no grid area
(`range(0+3-1, 1, 3)` is empty), so `localize` returns `(None, -inf)`. -/
theorem c10_localize_empty_enumeration_witness :
    (area_generator 1 1 3 (some (((3 : ℕ) : ℝ) / ((2 : ℕ) : ℝ))) 1.1 = []) ∧
      localize [] ⟨1, 1, 0, fun _ _ => []⟩ (2, 3) 3 1.1 = (none, (⊥ : EReal)) := by
  have hgen : area_generator 1 1 3 (some (((3 : ℕ) : ℝ) / ((2 : ℕ) : ℝ))) 1.1 = [] := by
    have hgrid : gridAreas 1 1 3 = [] := by decide
    have hne : (((3 : ℕ) : ℝ) / ((2 : ℕ) : ℝ)) ≠ 0 := by norm_num
    simp only [area_generator, if_neg hne, hgrid, List.filter_nil]
  exact ⟨hgen, c10_localize_empty_enumeration [] ⟨1, 1, 0, fun _ _ => []⟩ (2, 3) 3 1.1 hgen⟩

/-! ### C3: integral-image area sums -/

theorem sum_range_sub_range {α : Type} [LinearOrderedField α] (g : ℕ → α)
    {a b : ℕ} (h : a ≤ b + 1) :
    (∑ i ∈ Finset.range (b + 1), g i) - (∑ i ∈ Finset.range a, g i)
      = ∑ i ∈ Finset.Icc a b, g i := by
  rw [← Nat.Ico_succ_right, ← Finset.sum_range_add_sum_Ico g h]
  ring

/-- The inclusion-exclusion value of `_integral_image_sum` on the integral
image of `f^e` is exactly the rectangle sum clamped below by zero. -/
theorem integral_image_sum_integral {α : Type} [LinearOrderedField α]
    (f : ℕ → ℕ → α) (e x1 y1 x2 y2 : ℕ) (hx : x1 ≤ x2) (hy : y1 ≤ y2) :
    integral_image_sum (compute_integral_image f e) (x1, y1, x2, y2)
      = max 0 (brute_force_sum f e (x1, y1, x2, y2)) := by
  simp only [integral_image_sum, compute_integral_image, brute_force_sum, cumsum]
  congr 1
  rcases Nat.eq_zero_or_pos x1 with hx1 | hx1 <;>
    rcases Nat.eq_zero_or_pos y1 with hy1 | hy1
  · -- x1 = 0, y1 = 0
    subst hx1; subst hy1
    simp only [lt_irrefl, if_false, false_and]
    simp only [Finset.range_eq_Ico, Nat.Ico_succ_right]
    exact Finset.sum_comm
  · -- x1 = 0, 0 < y1
    subst hx1
    simp only [lt_irrefl, if_false, false_and, if_pos hy1]
    have h1 : y1 - 1 + 1 = y1 := by omega
    rw [h1, ← Finset.sum_sub_distrib]
    rw [Finset.sum_congr rfl fun x _ =>
      sum_range_sub_range (fun y => f y x ^ e) (by omega : y1 ≤ y2 + 1)]
    simp only [Finset.range_eq_Ico, Nat.Ico_succ_right]
    exact Finset.sum_comm
  · -- 0 < x1, y1 = 0
    subst hy1
    simp only [if_pos hx1, lt_irrefl, and_false, if_false]
    have h1 : x1 - 1 + 1 = x1 := by omega
    rw [h1, sum_range_sub_range _ (by omega : x1 ≤ x2 + 1)]
    simp only [Finset.range_eq_Ico, Nat.Ico_succ_right]
    exact Finset.sum_comm
  · -- 0 < x1, 0 < y1
    simp only [if_pos hx1, if_pos hy1, if_pos (And.intro hx1 hy1)]
    have h1 : x1 - 1 + 1 = x1 := by omega
    have h2 : y1 - 1 + 1 = y1 := by omega
    rw [h1, h2]
    have reorder : ∀ a b c d : α, a - b - (c - d) = a - b - c + d := by
      intro a b c d; ring
    rw [← reorder,
      sum_range_sub_range _ (by omega : x1 ≤ x2 + 1),
      sum_range_sub_range _ (by omega : x1 ≤ x2 + 1),
      ← Finset.sum_sub_distrib]
    rw [Finset.sum_congr rfl fun x _ =>
      sum_range_sub_range (fun y => f y x ^ e) (by omega : y1 ≤ y2 + 1)]
    exact Finset.sum_comm

/-- C3 counterexample: on the all-(-1) feature map with exponent 1, the area
sum over the single-cell rectangle `(0,0,0,0)` is 0 (clamped), while the
brute-force sum is -1, so the claimed unconditional equality fails. -/
theorem c3_counterexample :
    integral_image_sum (compute_integral_image (fun _ _ => (-1 : ℚ)) 1) (0, 0, 0, 0)
        = 0 ∧
      brute_force_sum (fun _ _ => (-1 : ℚ)) 1 (0, 0, 0, 0) = -1 := by
  constructor
  · simp [integral_image_sum, compute_integral_image, cumsum]
  · simp [brute_force_sum]

/-- C3 (amended): for every feature map with non-negative entries, every
exponent, and every valid area (`0 ≤ left ≤ right < W`,
`0 ≤ upper ≤ lower < H`, including the `left = 0` / `upper = 0` edge cases),
the area sum computed from the integral image by inclusion-exclusion equals
the brute-force elementwise sum of `feature_map^exponent` over the rectangle
(for arbitrary entries it equals that sum clamped below by 0, per
`integral_image_sum_integral`). -/
theorem c3_area_sum_correct {α : Type} [LinearOrderedField α]
    (f : ℕ → ℕ → α) (e W H x1 y1 x2 y2 : ℕ)
    (hx : x1 ≤ x2) (hxW : x2 < W) (hy : y1 ≤ y2) (hyH : y2 < H)
    (hf : ∀ y x, 0 ≤ f y x) :
    integral_image_sum (compute_integral_image f e) (x1, y1, x2, y2)
      = brute_force_sum f e (x1, y1, x2, y2) := by
  rw [integral_image_sum_integral f e x1 y1 x2 y2 hx hy]
  refine max_eq_right ?_
  refine Finset.sum_nonneg fun y _ => Finset.sum_nonneg fun x _ => ?_
  exact pow_nonneg (hf y x) e

/-- Witness for C3 at a concrete input: the constant-2 map, exponent 1,
area `(0,0,1,1)` inside a 2×2 image; both sides evaluate to 8. -/
theorem c3_area_sum_correct_witness :
    integral_image_sum (compute_integral_image (fun _ _ => (2 : ℚ)) 1) (0, 0, 1, 1)
        = brute_force_sum (fun _ _ => (2 : ℚ)) 1 (0, 0, 1, 1) ∧
      brute_force_sum (fun _ _ => (2 : ℚ)) 1 (0, 0, 1, 1) = 8 := by
  constructor
  · exact c3_area_sum_correct (fun _ _ => (2 : ℚ)) 1 2 2 0 0 1 1
      (by decide) (by decide) (by decide) (by decide) (fun y x => by norm_num)
  · simp only [brute_force_sum, ← Nat.Ico_succ_right, ← Finset.range_eq_Ico,
      Finset.sum_range_succ, Finset.sum_range_zero]
    norm_num

/-! ### C5: score range -/

/-- C5: for every L2-normalized query vector, every non-negative feature map,
and every valid area on its integral image, `_compute_area_score` returns a
value in `[-1, 1]` (the final `np.clip(score, -1.0, 1.0)` guarantees it). -/
theorem c5_score_range (query : List ℝ) (fm : FMap) (e : ℕ) (x1 y1 x2 y2 : ℕ)
    (hq : vecNorm query = 1)
    (hfm : ∀ y x ch, 0 ≤ fm.chan ch y x)
    (hx : x1 ≤ x2) (hxW : x2 < fm.width) (hy : y1 ≤ y2) (hyH : y2 < fm.height) :
    -1 ≤ compute_area_score query (x1, y1, x2, y2) (fm.integral e) e ∧
      compute_area_score query (x1, y1, x2, y2) (fm.integral e) e ≤ 1 := by
  unfold compute_area_score
  constructor
  · exact le_min (by norm_num) (le_max_left _ _)
  · exact min_le_left _ _

/-- Witness for C5: query `[1]` (unit norm), the 1×1×1 zero feature map,
area `(0,0,0,0)`. -/
theorem c5_score_range_witness :
    (vecNorm [1] = 1) ∧
      (-1 ≤ compute_area_score [1] (0, 0, 0, 0) (FMap.integral ⟨1, 1, 1, fun _ _ => [0]⟩ 10) 10 ∧
        compute_area_score [1] (0, 0, 0, 0) (FMap.integral ⟨1, 1, 1, fun _ _ => [0]⟩ 10) 10 ≤ 1) := by
  have hq : vecNorm [1] = 1 := by
    simp [vecNorm]
  refine ⟨hq, c5_score_range [1] ⟨1, 1, 1, fun _ _ => [0]⟩ 10 0 0 0 0 hq ?_ ?_ ?_ ?_ ?_⟩
  · intro y x ch
    simp [FMap.chan]
  · exact le_refl 0
  · exact Nat.zero_lt_one
  · exact le_refl 0
  · exact Nat.zero_lt_one

/-! ### C4 / C7: bounding-box refinement -/

/-- The best-so-far accumulator's score never decreases along the candidate
fold of a refinement sweep. -/
theorem score_foldl_acc_le (sc : ℕ × ℕ × ℕ × ℕ → ℝ) (cs : List (ℕ × ℕ × ℕ × ℕ)) :
    ∀ acc : (ℕ × ℕ × ℕ × ℕ) × ℝ,
      acc.2 ≤ (cs.foldl (fun b c => if sc c > b.2 then (c, sc c) else b) acc).2 := by
  induction cs with
  | nil => intro acc; exact le_refl _
  | cons c cs ih =>
    intro acc
    rw [List.foldl_cons]
    refine le_trans ?_ (ih _)
    by_cases hc : sc c > acc.2
    · rw [if_pos hc]; exact le_of_lt hc
    · rw [if_neg hc]

/-- Any property preserved by accepting a strictly better candidate is an
invariant of the candidate fold. -/
theorem score_foldl_invariant (sc : ℕ × ℕ × ℕ × ℕ → ℝ)
    (P : (ℕ × ℕ × ℕ × ℕ) × ℝ → Prop) (cs : List (ℕ × ℕ × ℕ × ℕ))
    (hupd : ∀ (b : (ℕ × ℕ × ℕ × ℕ) × ℝ) (c : ℕ × ℕ × ℕ × ℕ), c ∈ cs → P b →
      sc c > b.2 → P (c, sc c)) :
    ∀ acc, P acc → P (cs.foldl (fun b c => if sc c > b.2 then (c, sc c) else b) acc) := by
  induction cs with
  | nil => intro acc h; exact h
  | cons c cs ih =>
    intro acc h
    rw [List.foldl_cons]
    refine ih (fun b d hd hb hgt => hupd b d (List.mem_cons_of_mem c hd) hb hgt) _ ?_
    by_cases hc : sc c > acc.2
    · rw [if_pos hc]; exact hupd acc c (List.mem_cons_self c cs) h hc
    · rwa [if_neg hc]

/-- If no candidate scores strictly above the accumulator, the fold leaves
the accumulator unchanged. -/
theorem score_foldl_no_improve (sc : ℕ × ℕ × ℕ × ℕ → ℝ)
    (cs : List (ℕ × ℕ × ℕ × ℕ)) :
    ∀ acc, (∀ c ∈ cs, sc c ≤ acc.2) →
      cs.foldl (fun b c => if sc c > b.2 then (c, sc c) else b) acc = acc := by
  induction cs with
  | nil => intro acc _; rfl
  | cons c cs ih =>
    intro acc h
    rw [List.foldl_cons, if_neg (not_lt.mpr (h c (List.mem_cons_self c cs)))]
    exact ih acc fun d hd => h d (List.mem_cons_of_mem c hd)

/-- Validity of an area `(left, upper, right, lower)` on a `height × width`
image: `left ≤ right < width` and `upper ≤ lower < height` (the lower bounds
`0 ≤ left`, `0 ≤ upper` are automatic over `ℕ`). -/
def valid_area (width height : ℕ) (a : ℕ × ℕ × ℕ × ℕ) : Prop :=
  a.1 ≤ a.2.2.1 ∧ a.2.2.1 < width ∧ a.2.1 ≤ a.2.2.2 ∧ a.2.2.2 < height

/-- Every clamped candidate move of a refinement sweep starting from a valid
area is again a valid area. -/
theorem refinement_candidates_valid {width height : ℕ} {a : ℕ × ℕ × ℕ × ℕ}
    (h : valid_area width height a) (step : ℕ) :
    ∀ c ∈ refinement_candidates a step width height, valid_area width height c := by
  obtain ⟨l, u, r, d⟩ := a
  obtain ⟨h1, h2, h3, h4⟩ := h
  intro c hc
  simp only [refinement_candidates, List.mem_cons, List.not_mem_nil, or_false] at hc
  simp only at h1 h2 h3 h4
  rcases hc with rfl | rfl | rfl | rfl | rfl | rfl | rfl | rfl <;>
    refine ⟨?_, ?_, ?_, ?_⟩ <;> simp only [valid_area] <;> omega

/-- The refinement sweep preserves validity of the tracked best area. -/
theorem refinement_sweep_valid (sc : ℕ × ℕ × ℕ × ℕ → ℝ) {width height : ℕ}
    (step : ℕ) {p : (ℕ × ℕ × ℕ × ℕ) × ℝ} (h : valid_area width height p.1) :
    valid_area width height ((refinement_sweep sc width height step p).1) := by
  unfold refinement_sweep
  exact score_foldl_invariant sc (fun q => valid_area width height q.1) _
    (fun b c hc _ _ => refinement_candidates_valid h step c hc) p h

/-- C7: for every valid input bounding box, the box returned by
`area_refinement` is also valid: each candidate move is clamped so that
left/upper never go below 0, right/lower never exceed `width-1` / `height-1`,
right never goes below left and lower never below upper, and the accepted
best is always one of the (valid) candidates or the previous best. -/
theorem c7_refinement_preserves_validity (query : List ℝ) (area : ℕ × ℕ × ℕ × ℕ)
    (area_score : ℝ) (ii : FMap) (iterations max_step e : ℕ)
    (h : valid_area ii.width ii.height area) :
    valid_area ii.width ii.height
        (area_refinement query area area_score ii iterations max_step e) ∧
      ∀ (a : ℕ × ℕ × ℕ × ℕ) (step : ℕ), valid_area ii.width ii.height a →
        ∀ c ∈ refinement_candidates a step ii.width ii.height,
          valid_area ii.width ii.height c := by
  refine ⟨?_, fun a step ha => refinement_candidates_valid ha step⟩
  unfold area_refinement
  set sc := fun a => compute_area_score query a ii e with hsc
  set steps := ((List.range max_step).map fun i => i + 1).reverse with hsteps
  have hiter : ∀ (step n : ℕ) (p : (ℕ × ℕ × ℕ × ℕ) × ℝ),
      valid_area ii.width ii.height p.1 →
      valid_area ii.width ii.height
        (((refinement_sweep sc ii.width ii.height step)^[n] p).1) := by
    intro step n
    induction n with
    | zero => intro p hp; exact hp
    | succ m ih =>
      intro p hp
      rw [Function.iterate_succ_apply]
      exact ih _ (refinement_sweep_valid sc step hp)
  have hfold : ∀ (l : List ℕ) (p : (ℕ × ℕ × ℕ × ℕ) × ℝ),
      valid_area ii.width ii.height p.1 →
      valid_area ii.width ii.height
        ((l.foldl (fun best step =>
          (refinement_sweep sc ii.width ii.height step)^[iterations] best) p).1) := by
    intro l
    induction l with
    | nil => intro p hp; exact hp
    | cons s l ih =>
      intro p hp
      rw [List.foldl_cons]
      exact ih _ (hiter s iterations p hp)
  exact hfold steps (area, area_score) h

/-- Witness for C7: the valid box `(0, 0, 1, 1)` on a 2×2 integral image
stays valid through refinement. -/
theorem c7_refinement_preserves_validity_witness :
    valid_area 2 2 ((0, 0, 1, 1) : ℕ × ℕ × ℕ × ℕ) ∧
      valid_area (FMap.mk 2 2 0 fun _ _ => []).width
        (FMap.mk 2 2 0 fun _ _ => []).height
        (area_refinement [] (0, 0, 1, 1) 0 (FMap.mk 2 2 0 fun _ _ => []) 10 3 10) := by
  have h : valid_area 2 2 ((0, 0, 1, 1) : ℕ × ℕ × ℕ × ℕ) := by
    refine ⟨?_, ?_, ?_, ?_⟩ <;> decide
  exact ⟨h, (c7_refinement_preserves_validity [] (0, 0, 1, 1) 0
    (FMap.mk 2 2 0 fun _ _ => []) 10 3 10 h).1⟩

/-- C4: starting from an area together with its own score, refinement is
monotone: the score of the returned box is never below the input
`area_score`; within each sweep the tracked best score only weakly
increases; and a sweep in which no candidate strictly improves on the
current best leaves area and score unchanged. -/
theorem c4_refinement_monotonic (query : List ℝ) (area : ℕ × ℕ × ℕ × ℕ)
    (area_score : ℝ) (ii : FMap) (iterations max_step e : ℕ)
    (h : area_score = compute_area_score query area ii e) :
    area_score ≤ compute_area_score query
        (area_refinement query area area_score ii iterations max_step e) ii e ∧
      (∀ (p : (ℕ × ℕ × ℕ × ℕ) × ℝ) (step : ℕ),
        p.2 ≤ (refinement_sweep (fun a => compute_area_score query a ii e)
          ii.width ii.height step p).2) ∧
      (∀ (p : (ℕ × ℕ × ℕ × ℕ) × ℝ) (step : ℕ),
        (∀ c ∈ refinement_candidates p.1 step ii.width ii.height,
          compute_area_score query c ii e ≤ p.2) →
        refinement_sweep (fun a => compute_area_score query a ii e)
          ii.width ii.height step p = p) := by
  set sc := fun a => compute_area_score query a ii e with hsc
  refine ⟨?_, fun p step => score_foldl_acc_le sc _ p,
    fun p step hp => score_foldl_no_improve sc _ p hp⟩
  set steps := ((List.range max_step).map fun i => i + 1).reverse with hsteps
  -- invariant: the accumulator score is at least the initial score and is
  -- the score of the accumulator area
  set P : (ℕ × ℕ × ℕ × ℕ) × ℝ → Prop :=
    fun p => area_score ≤ p.2 ∧ p.2 = sc p.1 with hP
  have hsweep : ∀ (step : ℕ) (p : (ℕ × ℕ × ℕ × ℕ) × ℝ), P p →
      P (refinement_sweep sc ii.width ii.height step p) := by
    intro step p hp
    unfold refinement_sweep
    refine score_foldl_invariant sc P _ ?_ p hp
    intro b c _ hb hgt
    exact ⟨le_of_lt (lt_of_le_of_lt hb.1 hgt), rfl⟩
  have hiter : ∀ (step n : ℕ) (p : (ℕ × ℕ × ℕ × ℕ) × ℝ), P p →
      P ((refinement_sweep sc ii.width ii.height step)^[n] p) := by
    intro step n
    induction n with
    | zero => intro p hp; exact hp
    | succ m ih =>
      intro p hp
      rw [Function.iterate_succ_apply]
      exact ih _ (hsweep step p hp)
  have hfold : ∀ (l : List ℕ) (p : (ℕ × ℕ × ℕ × ℕ) × ℝ), P p →
      P (l.foldl (fun best step =>
        (refinement_sweep sc ii.width ii.height step)^[iterations] best) p) := by
    intro l
    induction l with
    | nil => intro p hp; exact hp
    | cons s l ih =>
      intro p hp
      rw [List.foldl_cons]
      exact ih _ (hiter s iterations p hp)
  have hfinal := hfold steps (area, area_score) ⟨le_refl _, h⟩
  have harea : area_refinement query area area_score ii iterations max_step e
      = (steps.foldl (fun best step =>
          (refinement_sweep sc ii.width ii.height step)^[iterations] best)
          (area, area_score)).1 := rfl
  rw [harea]
  show area_score ≤ sc (steps.foldl (fun best step =>
      (refinement_sweep sc ii.width ii.height step)^[iterations] best)
      (area, area_score)).1
  exact hfinal.2 ▸ hfinal.1

/-- Witness for C4: on a 1×1 integral image with an empty channel list every
area scores `min 1 (max (-1) 0) = 0`, so starting from `(0,0,0,0)` with its
own score 0, refinement cannot go below 0. -/
theorem c4_refinement_monotonic_witness :
    ((0 : ℝ) = compute_area_score [] (0, 0, 0, 0) (FMap.mk 1 1 0 fun _ _ => []) 10) ∧
      (0 : ℝ) ≤ compute_area_score []
        (area_refinement [] (0, 0, 0, 0) 0 (FMap.mk 1 1 0 fun _ _ => []) 10 3 10)
        (FMap.mk 1 1 0 fun _ _ => []) 10 := by
  have h : (0 : ℝ) = compute_area_score [] (0, 0, 0, 0) (FMap.mk 1 1 0 fun _ _ => []) 10 := by
    simp [compute_area_score, integral_image_sum_vec, dotp]
  exact ⟨h, (c4_refinement_monotonic [] (0, 0, 0, 0) 0
    (FMap.mk 1 1 0 fun _ _ => []) 10 3 10 h).1⟩

/-! ### C2: ranking correctness -/

/-- Selection/ordering facts about taking the first `k` entries of a fully
`r`-sorted index list of `range N`: length, distinctness, range membership,
pairwise order, and dominance over the non-selected indices. -/
theorem insertionSort_take_props (r : ℕ → ℕ → Prop) [DecidableRel r]
    (htot : ∀ i j, r i j ∨ r j i) (htrans : ∀ i j m, r i j → r j m → r i m)
    (N k : ℕ) :
    ((List.insertionSort r (List.range N)).take k).length = min k N
    ∧ ((List.insertionSort r (List.range N)).take k).Nodup
    ∧ (∀ i ∈ (List.insertionSort r (List.range N)).take k, i < N)
    ∧ List.Pairwise r ((List.insertionSort r (List.range N)).take k)
    ∧ (∀ i ∈ (List.insertionSort r (List.range N)).take k, ∀ j < N,
        j ∉ (List.insertionSort r (List.range N)).take k → r i j) := by
  haveI : IsTotal ℕ r := ⟨htot⟩
  haveI : IsTrans ℕ r := ⟨fun a b c => htrans a b c⟩
  set l := List.insertionSort r (List.range N) with hl
  have hperm : l.Perm (List.range N) := List.perm_insertionSort r _
  have hsorted : List.Pairwise r l := List.sorted_insertionSort r (List.range N)
  have hnodup : l.Nodup := hperm.nodup_iff.mpr (List.nodup_range N)
  have hsub : List.Sublist (l.take k) l := List.take_sublist k l
  refine ⟨?_, hnodup.sublist hsub, ?_, List.Pairwise.sublist hsub hsorted, ?_⟩
  · rw [List.length_take, hperm.length_eq, List.length_range]
  · intro i hi
    exact List.mem_range.mp (hperm.subset (hsub.subset hi))
  · intro i hi j hj hjnot
    have hjl : j ∈ l := hperm.mem_iff.mpr (List.mem_range.mpr hj)
    have hsplit : List.take k l ++ List.drop k l = l := List.take_append_drop k l
    have hjdrop : j ∈ List.drop k l := by
      rcases (List.mem_append.mp (by rw [hsplit]; exact hjl)) with h | h
      · exact absurd h hjnot
      · exact h
    have hpair : List.Pairwise r (List.take k l ++ List.drop k l) := by
      rw [hsplit]; exact hsorted
    exact (List.pairwise_append.mp hpair).2.2 i hi j hjdrop

theorem descending_argsort_eq_take {α : Type} [LinearOrderedField α]
    (array : List α) (k : ℕ) (h : k ≠ 0 ∨ array.length = 0) :
    descending_argsort array k
      = (List.insertionSort (fun i j => array.getD j 0 ≤ array.getD i 0)
          (List.range array.length)).take k := by
  unfold descending_argsort
  by_cases hk : k = 0
  · rcases h with h | h
    · exact absurd hk h
    · subst hk
      rw [if_pos rfl, h]
      rfl
  · rw [if_neg hk]

/-- C2 (amended): for every query vector and collection of `N` stored
vectors, with `k = min(N, |top_n|)` and similarity the plain dot product:
the returned similarities are the scores of the returned indices in order;
for `top_n > 0` the result is exactly `k` distinct indices dominating all
others, with scores in non-increasing order (strictly decreasing whenever
the selected scores are pairwise distinct); for `top_n = 0` the result is a
permutation of `range N` in non-increasing score order; for `top_n < 0` it
is the `k` lowest-scoring indices in non-decreasing order. -/
theorem c2_rank_correct {α : Type} [LinearOrderedField α] (q : List α)
    (store : List (List α)) (top_n : ℤ) :
    (query q store top_n).2
        = (query q store top_n).1.map
            (fun i => (store.map fun v => dotp v q).getD i 0)
    ∧ (0 < top_n →
        (query q store top_n).1.length = min store.length top_n.natAbs
        ∧ (query q store top_n).1.Nodup
        ∧ (∀ i ∈ (query q store top_n).1, i < store.length)
        ∧ List.Pairwise (fun a b => b ≤ a) ((query q store top_n).2)
        ∧ ((query q store top_n).2.Nodup →
            List.Pairwise (fun a b => b < a) ((query q store top_n).2))
        ∧ (∀ i ∈ (query q store top_n).1, ∀ j < store.length,
            j ∉ (query q store top_n).1 →
              (store.map fun v => dotp v q).getD j 0
                ≤ (store.map fun v => dotp v q).getD i 0))
    ∧ (top_n = 0 →
        (query q store top_n).1.Perm (List.range store.length)
        ∧ List.Pairwise (fun a b => b ≤ a) ((query q store top_n).2))
    ∧ (top_n < 0 →
        (query q store top_n).1.length = min store.length top_n.natAbs
        ∧ (query q store top_n).1.Nodup
        ∧ (∀ i ∈ (query q store top_n).1, i < store.length)
        ∧ List.Pairwise (fun a b => a ≤ b) ((query q store top_n).2)
        ∧ (∀ i ∈ (query q store top_n).1, ∀ j < store.length,
            j ∉ (query q store top_n).1 →
              (store.map fun v => dotp v q).getD i 0
                ≤ (store.map fun v => dotp v q).getD j 0)) := by
  set sim := store.map fun v => dotp v q with hsim
  have hN : sim.length = store.length := by rw [hsim, List.length_map]
  set key : ℕ → α := fun i => sim.getD i 0 with hkey
  have hsnd : (query q store top_n).2
      = (query q store top_n).1.map key := rfl
  have hmap_pairwise : ∀ (t : List ℕ) (s : α → α → Prop) (r : ℕ → ℕ → Prop),
      (∀ i j, r i j → s (key i) (key j)) → List.Pairwise r t →
        List.Pairwise s (t.map key) := by
    intro t s r himp ht
    exact List.Pairwise.map key himp ht
  refine ⟨hsnd, ?_, ?_, ?_⟩
  · -- top_n > 0
    intro hpos
    have hge : (0 : ℤ) ≤ top_n := le_of_lt hpos
    have hidx : (query q store top_n).1
        = descending_argsort sim (min store.length top_n.natAbs) := by
      simp only [query, if_pos hge, hsim]
    have hk : min store.length top_n.natAbs ≠ 0 ∨ sim.length = 0 := by
      rcases Nat.eq_zero_or_pos (min store.length top_n.natAbs) with h0 | h0
      · right
        rw [hN]
        have : top_n.natAbs ≠ 0 := by
          simp [Int.natAbs_eq_zero]
          omega
        omega
      · left; omega
    rw [hidx, descending_argsort_eq_take sim _ hk] at hsnd ⊢
    set r : ℕ → ℕ → Prop := fun i j => key j ≤ key i with hr
    have props := insertionSort_take_props r
      (fun i j => le_total (key j) (key i)) (fun i j m h1 h2 => le_trans h2 h1)
      sim.length (min store.length top_n.natAbs)
    obtain ⟨hlen, hnodup, hmem, hpair, hdom⟩ := props
    have hlen2 : ((List.insertionSort r (List.range sim.length)).take
        (min store.length top_n.natAbs)).length = min store.length top_n.natAbs := by
      rw [hlen, hN]
      omega
    have hpair2 : List.Pairwise (fun a b => b ≤ a)
        (((List.insertionSort r (List.range sim.length)).take
          (min store.length top_n.natAbs)).map key) :=
      hmap_pairwise _ _ r (fun i j h => h) hpair
    refine ⟨hlen2, hnodup, ?_, ?_, ?_, ?_⟩
    · intro i hi
      rw [← hN]
      exact hmem i hi
    · rw [hsnd]; exact hpair2
    · rw [hsnd]
      intro hnd
      have := List.Pairwise.and hpair2 hnd
      exact this.imp fun hab => lt_of_le_of_ne hab.1 (Ne.symm hab.2)
    · intro i hi j hj hjn
      exact hdom i hi j (by rw [hN]; exact hj) hjn
  · -- top_n = 0
    rintro rfl
    have hidx : (query q store 0).1 = descending_argsort sim 0 := by
      simp only [query, if_pos (le_refl (0 : ℤ)), hsim]
      norm_num
    have hfull : descending_argsort sim 0
        = List.insertionSort (fun i j => sim.getD j 0 ≤ sim.getD i 0)
            (List.range sim.length) := by
      unfold descending_argsort
      rw [if_pos rfl]
    set r : ℕ → ℕ → Prop := fun i j => key j ≤ key i with hr
    haveI : IsTotal ℕ r := ⟨fun i j => le_total (key j) (key i)⟩
    haveI : IsTrans ℕ r := ⟨fun i j m h1 h2 => le_trans h2 h1⟩
    constructor
    · rw [hidx, hfull, ← hN]
      exact List.perm_insertionSort r _
    · rw [hsnd, hidx, hfull]
      exact hmap_pairwise _ _ r (fun i j h => h)
        (List.sorted_insertionSort r (List.range sim.length))
  · -- top_n < 0
    intro hneg
    have hnotge : ¬ (0 : ℤ) ≤ top_n := not_le.mpr hneg
    have hidx : (query q store top_n).1
        = ascending_argsort sim (min store.length top_n.natAbs) := by
      simp only [query, if_neg hnotge, hsim]
    have hasc : ascending_argsort sim (min store.length top_n.natAbs)
        = (List.insertionSort (fun i j => sim.getD i 0 ≤ sim.getD j 0)
            (List.range sim.length)).take (min store.length top_n.natAbs) := rfl
    rw [hidx, hasc] at hsnd ⊢
    set r : ℕ → ℕ → Prop := fun i j => key i ≤ key j with hr
    have props := insertionSort_take_props r
      (fun i j => le_total (key i) (key j)) (fun i j m h1 h2 => le_trans h1 h2)
      sim.length (min store.length top_n.natAbs)
    obtain ⟨hlen, hnodup, hmem, hpair, hdom⟩ := props
    refine ⟨?_, hnodup, ?_, ?_, ?_⟩
    · rw [hlen, hN]
      omega
    · intro i hi
      rw [← hN]
      exact hmem i hi
    · rw [hsnd]
      exact hmap_pairwise _ _ r (fun i j h => h) hpair
    · intro i hi j hj hjn
      exact hdom i hi j (by rw [hN]; exact hj) hjn

/-- C2 counterexample: with two identical stored vectors and `top_n = 2` the
returned scores are `[1, 1]` — a tie — so the similarities of the returned
indices are not sorted *strictly* descending as the claim states. -/
theorem c2_counterexample :
    (query [(1 : ℚ)] [[1], [1]] 2).2 = [1, 1] ∧
      ¬ List.Pairwise (fun a b : ℚ => b < a) ((query [(1 : ℚ)] [[1], [1]] 2).2) := by
  have h : (query [(1 : ℚ)] [[1], [1]] 2).2 = [1, 1] := by
    norm_num [query, descending_argsort, dotp, List.insertionSort,
      List.orderedInsert, List.range_succ]
  refine ⟨h, ?_⟩
  rw [h]
  norm_num [List.pairwise_cons]

/-- Witness for C2 at a concrete input: store `[[2], [1]]`, query `[1]`,
`top_n = 2` returns indices `[0, 1]` with scores `[2, 1]`. -/
theorem c2_rank_correct_witness :
    ((0 : ℤ) < 2) ∧
      (query [(1 : ℚ)] [[2], [1]] 2).1.length
        = min (List.length [[(2 : ℚ)], [1]]) (Int.natAbs 2) ∧
      (query [(1 : ℚ)] [[2], [1]] 2).1 = [0, 1] ∧
      (query [(1 : ℚ)] [[2], [1]] 2).2 = [2, 1] := by
  refine ⟨by norm_num,
    ((c2_rank_correct [(1 : ℚ)] [[2], [1]] 2).2.1 (by norm_num)).1, ?_, ?_⟩
  · norm_num [query, descending_argsort, dotp, List.insertionSort,
      List.orderedInsert, List.range_succ]
  · norm_num [query, descending_argsort, dotp, List.insertionSort,
      List.orderedInsert, List.range_succ]

/-! ### C9 / C1: the search_roi entry point -/

/-- C9: `search_roi` requires `top_n >= 0` as an up-front assertion — every
negative `top_n` fails the assertion before any computation — even though
the underlying ranking function is defined for negative `top_n` (it then
selects `min(N, |top_n|)` indices, the lowest-similarity ones). -/
theorem c9_search_roi_asserts_nonneg_top_n (query_repr localization_repr : List ℝ)
    (crop_height crop_width : ℕ) (feature_store : List (List ℝ))
    (get_features : ℕ → FMap) (get_metadata : ℕ → ℕ × ℕ) (top_n : ℤ)
    (h : top_n < 0) :
    search_roi query_repr localization_repr crop_height crop_width feature_store
        get_features get_metadata top_n = Except.error "AssertionError"
    ∧ (query query_repr feature_store top_n).1.length
        = min feature_store.length top_n.natAbs := by
  constructor
  · unfold search_roi
    rw [if_pos h]
  · have hnot : ¬ (0 : ℤ) ≤ top_n := not_le.mpr h
    simp only [query, if_neg hnot, ascending_argsort]
    rw [List.length_take, List.length_insertionSort, List.length_range,
      List.length_map]
    omega

/-- Witness for C9: a concrete call with `top_n = -1` returns the assertion
failure. -/
theorem c9_search_roi_asserts_nonneg_top_n_witness :
    ((-1 : ℤ) < 0) ∧
      search_roi [1] [1] 1 1 [[1]] (fun _ => FMap.mk 1 1 0 fun _ _ => [])
          (fun _ => (1, 1)) (-1) = Except.error "AssertionError" := by
  exact ⟨by norm_num,
    (c9_search_roi_asserts_nonneg_top_n [1] [1] 1 1 [[1]]
      (fun _ => FMap.mk 1 1 0 fun _ _ => []) (fun _ => (1, 1)) (-1)
      (by norm_num)).1⟩

theorem query_fst_ne_nil (q : List ℝ) (store : List (List ℝ)) (top_n : ℤ)
    (h0 : 0 ≤ top_n) (hne : store ≠ []) : (query q store top_n).1 ≠ [] := by
  have hlen : store.length ≠ 0 := fun hc => hne (List.length_eq_zero.mp hc)
  have hpos : 0 < (query q store top_n).1.length := by
    simp only [query, if_pos h0, descending_argsort]
    by_cases hk : min store.length top_n.natAbs = 0
    · rw [if_pos hk, List.length_insertionSort, List.length_range,
        List.length_map]
      omega
    · rw [if_neg hk, List.length_take, List.length_insertionSort,
        List.length_range, List.length_map]
      omega
  exact List.ne_nil_of_length_pos hpos

/-- C1: the stage-2 loop of `search_roi` does not refine each candidate's
just-computed localization result — it invokes
`area_refinement(query, best_area, best_score, integral_image)` on names
that are undefined in that scope, so on every call that retrieves at least
one candidate (non-empty store and `top_n >= 0`) the first loop iteration
raises `NameError` instead of producing the claimed data flow. -/
theorem c1_stage2_refinement_name_error (query_repr localization_repr : List ℝ)
    (crop_height crop_width : ℕ) (feature_store : List (List ℝ))
    (get_features : ℕ → FMap) (get_metadata : ℕ → ℕ × ℕ) (top_n : ℤ)
    (h0 : 0 ≤ top_n) (hne : feature_store ≠ []) :
    search_roi query_repr localization_repr crop_height crop_width feature_store
        get_features get_metadata top_n
      = Except.error "NameError: name best_area is not defined" := by
  obtain ⟨i, rest, hcons⟩ :=
    List.exists_cons_of_ne_nil (query_fst_ne_nil query_repr feature_store top_n h0 hne)
  unfold search_roi
  rw [if_neg (not_lt.mpr h0)]
  simp only [hcons]
  rfl

/-- Witness for C1: a one-vector store with `top_n = 1` makes `search_roi`
fail with the `NameError` of the stage-2 loop. -/
theorem c1_stage2_refinement_name_error_witness :
    ((0 : ℤ) ≤ 1) ∧ ([[(1 : ℝ)]] ≠ ([] : List (List ℝ))) ∧
      search_roi [1] [1] 1 1 [[1]] (fun _ => FMap.mk 1 1 0 fun _ _ => [])
          (fun _ => (1, 1)) 1
        = Except.error "NameError: name best_area is not defined" := by
  exact ⟨by norm_num, by simp,
    c1_stage2_refinement_name_error [1] [1] 1 1 [[1]]
      (fun _ => FMap.mk 1 1 0 fun _ _ => []) (fun _ => (1, 1)) 1
      (by norm_num) (by simp)⟩

/-! ### C8: coordinate rescaling -/

theorem pyRound_intCast (n : ℤ) : pyRound (n : ℚ) = n := by
  unfold pyRound
  rw [Int.floor_intCast]
  norm_num

/-- `pyRound` rounds to a nearest integer: the distance is at most 1/2. -/
theorem pyRound_nearest (q : ℚ) : |(pyRound q : ℚ) - q| ≤ 1 / 2 := by
  have hfl := Int.floor_le q
  have hfu := Int.lt_floor_add_one q
  simp only [pyRound]
  split_ifs with h1 h2 h3 <;> rw [abs_le] <;> constructor <;> push_cast <;> linarith

/-- C8: the per-candidate rescaling uses `scale_x = image_width / fm_width`
and `scale_y = image_height / fm_height` from the candidate's own metadata
and rounds each coordinate to a nearest integer; in particular a
feature-space box `(2,2,4,4)` on an `H × W` feature map with metadata
`(width = 2W, height = 2H)` rescales to the pixel box `(4,4,8,8)`. -/
theorem c8_rescale_bbox (W H : ℕ) (hW : 0 < W) (hH : 0 < H) :
    rescale_bbox (2, 2, 4, 4) (2 * W) (2 * H) W H = (4, 4, 8, 8) ∧
      ∀ q : ℚ, |(pyRound q : ℚ) - q| ≤ 1 / 2 := by
  refine ⟨?_, pyRound_nearest⟩
  have hW0 : (W : ℚ) ≠ 0 := Nat.cast_ne_zero.mpr (by omega)
  have hH0 : (H : ℚ) ≠ 0 := Nat.cast_ne_zero.mpr (by omega)
  have hsx : ((2 * W : ℕ) : ℚ) / (W : ℚ) = 2 := by
    push_cast
    field_simp
  have hsy : ((2 * H : ℕ) : ℚ) / (H : ℚ) = 2 := by
    push_cast
    field_simp
  have h4 : pyRound 4 = 4 := by
    have := pyRound_intCast 4
    norm_num at this
    exact this
  have h8 : pyRound 8 = 8 := by
    have := pyRound_intCast 8
    norm_num at this
    exact this
  unfold rescale_bbox
  simp only [hsx, hsy]
  norm_num [h4, h8]

/-- Witness for C8 at `W = 3`, `H = 5`: metadata `(6, 10)` rescales
`(2,2,4,4)` to `(4,4,8,8)`. -/
theorem c8_rescale_bbox_witness :
    ((0 : ℕ) < 3 ∧ (0 : ℕ) < 5) ∧
      rescale_bbox (2, 2, 4, 4) (2 * 3) (2 * 5) 3 5 = (4, 4, 8, 8) := by
  exact ⟨⟨by norm_num, by norm_num⟩,
    (c8_rescale_bbox 3 5 (by norm_num) (by norm_num)).1⟩

end PatternSpotting
